import Mathlib

/-!
Verification of the context-polymorphic binary codec layer of the goblin
repository excerpt: ELF program headers (`src/elf/program_header.rs`) and
Mach-O nlist symbol tables (`src/mach/symbols.rs`).

Bytes are modelled as `List Nat` (each element a byte value); machine
integers are `Nat` with explicit `% 2 ^ w` where the Rust code truncates
(`as u32` casts, wrapping arithmetic).  Fallible operations return
`Except Goblin.Error`.  The `scroll` crate's `pread`/`gread` primitives are
modelled as bounds-checked sequential field reads, which is their observable
behaviour on byte slices.
-/

set_option autoImplicit false

namespace Goblin

/-- Byte order carried in the parsing context (`scroll::Endian`). -/
inductive Endian where
  | little
  | big
deriving DecidableEq, Repr

/-- Word-width selector (`container::Container`): `little` selects the 32-bit
wire layouts, `big` the 64-bit ones. -/
inductive Container where
  | little
  | big
deriving DecidableEq, Repr

/-- Parsing context (`container::Ctx`): width plus byte order. -/
structure Ctx where
  container : Container
  le : Endian
deriving DecidableEq, Repr

/-- Error type standing for `goblin::error::Error` (wrapping `scroll` errors):
the payload is the offending offset / length. -/
inductive Error where
  | badOffset : Nat → Error
  | badInput : Nat → Error
deriving DecidableEq, Repr

/-- Little-endian byte decomposition of `v` into `w` bytes
(least significant first). -/
def bytesLE : Nat → Nat → List Nat
  | 0, _ => []
  | w + 1, v => v % 256 :: bytesLE w (v / 256)

/-- Little-endian recomposition of a byte list into a natural number. -/
def decodeLE : List Nat → Nat
  | [] => 0
  | b :: bs => b + 256 * decodeLE bs

/-- Encode a `w`-byte field value under byte order `e`. -/
def encodeField (e : Endian) (w v : Nat) : List Nat :=
  match e with
  | .little => bytesLE w v
  | .big => (bytesLE w v).reverse

/-- Decode a `w`-byte field under byte order `e`. -/
def decodeField (e : Endian) (bs : List Nat) : Nat :=
  match e with
  | .little => decodeLE bs
  | .big => decodeLE bs.reverse

/-- One bounds-checked sequential field read of `w` bytes (the behaviour of a
derived `scroll` `Pread` on each field: fail if fewer than `w` bytes remain,
otherwise decode and hand back the remaining bytes). -/
def takeField (e : Endian) (w : Nat) (buf : List Nat) :
    Except Error (Nat × List Nat) :=
  if w ≤ buf.length then
    .ok (decodeField e (buf.take w), buf.drop w)
  else
    .error (.badInput buf.length)

/-- `2 ^ 32`, the modulus of Rust `u32` truncation (`as u32`). -/
def U32 : Nat := 2 ^ 32

/-- `2 ^ 64`, the modulus of Rust `u64` / 64-bit `usize` arithmetic. -/
def U64 : Nat := 2 ^ 64

/-- Canonical unified program header (`elf::program_header::ProgramHeader`):
`p_type` and `p_flags` are `u32` fields, the rest `u64`. -/
structure ProgramHeader where
  p_type : Nat
  p_flags : Nat
  p_offset : Nat
  p_vaddr : Nat
  p_paddr : Nat
  p_filesz : Nat
  p_memsz : Nat
  p_align : Nat
deriving DecidableEq, Repr

namespace program_header32

/-- 32-bit wire program header (`program_header32::ProgramHeader`): all
fields `u32`, in on-disk declaration order (flags come seventh). -/
structure ProgramHeader where
  p_type : Nat
  p_offset : Nat
  p_vaddr : Nat
  p_paddr : Nat
  p_filesz : Nat
  p_memsz : Nat
  p_flags : Nat
  p_align : Nat
deriving DecidableEq, Repr

/-- `program_header32::SIZEOF_PHDR` -/
def SIZEOF_PHDR : Nat := 32

/-- `From<program_header32::ProgramHeader> for ElfProgramHeader`: widening,
value-preserving. -/
def ProgramHeader.toElf (ph : ProgramHeader) : Goblin.ProgramHeader :=
  { p_type := ph.p_type
    p_flags := ph.p_flags
    p_offset := ph.p_offset
    p_vaddr := ph.p_vaddr
    p_paddr := ph.p_paddr
    p_filesz := ph.p_filesz
    p_memsz := ph.p_memsz
    p_align := ph.p_align }

/-- `From<ElfProgramHeader> for program_header32::ProgramHeader`: the six
64-bit fields are narrowed with `as u32` (truncation mod `2 ^ 32`). -/
def ProgramHeader.ofElf (ph : Goblin.ProgramHeader) : ProgramHeader :=
  { p_type := ph.p_type
    p_offset := ph.p_offset % U32
    p_vaddr := ph.p_vaddr % U32
    p_paddr := ph.p_paddr % U32
    p_filesz := ph.p_filesz % U32
    p_memsz := ph.p_memsz % U32
    p_flags := ph.p_flags
    p_align := ph.p_align % U32 }

/-- Derived `Pread` for the 32-bit wire header: eight sequential 4-byte
field reads in declaration order; fails when fewer bytes remain. -/
def ProgramHeader.tryFromCtx (e : Endian) (buf : List Nat) :
    Except Error (ProgramHeader × Nat) := do
  let (pt, b) ← takeField e 4 buf
  let (poff, b) ← takeField e 4 b
  let (pva, b) ← takeField e 4 b
  let (ppa, b) ← takeField e 4 b
  let (pfs, b) ← takeField e 4 b
  let (pms, b) ← takeField e 4 b
  let (pfl, b) ← takeField e 4 b
  let (pal, _) ← takeField e 4 b
  pure (⟨pt, poff, pva, ppa, pfs, pms, pfl, pal⟩, SIZEOF_PHDR)

/-- Derived `Pwrite` output for the 32-bit wire header: the eight 4-byte
field encodings in declaration order. -/
def ProgramHeader.encode (e : Endian) (ph : ProgramHeader) : List Nat :=
  encodeField e 4 ph.p_type ++ encodeField e 4 ph.p_offset ++
  encodeField e 4 ph.p_vaddr ++ encodeField e 4 ph.p_paddr ++
  encodeField e 4 ph.p_filesz ++ encodeField e 4 ph.p_memsz ++
  encodeField e 4 ph.p_flags ++ encodeField e 4 ph.p_align

end program_header32

namespace program_header64

/-- 64-bit wire program header (`program_header64::ProgramHeader`):
`p_type`/`p_flags` are `u32` and come first, the six `u64` fields follow. -/
structure ProgramHeader where
  p_type : Nat
  p_flags : Nat
  p_offset : Nat
  p_vaddr : Nat
  p_paddr : Nat
  p_filesz : Nat
  p_memsz : Nat
  p_align : Nat
deriving DecidableEq, Repr

/-- `program_header64::SIZEOF_PHDR` -/
def SIZEOF_PHDR : Nat := 56

/-- `From<program_header64::ProgramHeader> for ElfProgramHeader`: identity
widening (`as u64` on `u64` values). -/
def ProgramHeader.toElf (ph : ProgramHeader) : Goblin.ProgramHeader :=
  { p_type := ph.p_type
    p_flags := ph.p_flags
    p_offset := ph.p_offset
    p_vaddr := ph.p_vaddr
    p_paddr := ph.p_paddr
    p_filesz := ph.p_filesz
    p_memsz := ph.p_memsz
    p_align := ph.p_align }

/-- `From<ElfProgramHeader> for program_header64::ProgramHeader`: `as u64`
casts on already-64-bit fields, i.e. the identity on each field. -/
def ProgramHeader.ofElf (ph : Goblin.ProgramHeader) : ProgramHeader :=
  { p_type := ph.p_type
    p_flags := ph.p_flags
    p_offset := ph.p_offset
    p_vaddr := ph.p_vaddr
    p_paddr := ph.p_paddr
    p_filesz := ph.p_filesz
    p_memsz := ph.p_memsz
    p_align := ph.p_align }

/-- Derived `Pread` for the 64-bit wire header: two 4-byte reads followed by
six 8-byte reads, in declaration order. -/
def ProgramHeader.tryFromCtx (e : Endian) (buf : List Nat) :
    Except Error (ProgramHeader × Nat) := do
  let (pt, b) ← takeField e 4 buf
  let (pfl, b) ← takeField e 4 b
  let (poff, b) ← takeField e 8 b
  let (pva, b) ← takeField e 8 b
  let (ppa, b) ← takeField e 8 b
  let (pfs, b) ← takeField e 8 b
  let (pms, b) ← takeField e 8 b
  let (pal, _) ← takeField e 8 b
  pure (⟨pt, pfl, poff, pva, ppa, pfs, pms, pal⟩, SIZEOF_PHDR)

/-- Derived `Pwrite` output for the 64-bit wire header. -/
def ProgramHeader.encode (e : Endian) (ph : ProgramHeader) : List Nat :=
  encodeField e 4 ph.p_type ++ encodeField e 4 ph.p_flags ++
  encodeField e 8 ph.p_offset ++ encodeField e 8 ph.p_vaddr ++
  encodeField e 8 ph.p_paddr ++ encodeField e 8 ph.p_filesz ++
  encodeField e 8 ph.p_memsz ++ encodeField e 8 ph.p_align

/-- `ProgramHeader::from_bytes` of the `program_header64` module: overlays
the buffer onto `phnum` default-initialized wire headers via
`plain::copy_from_bytes` (a native-byte-order, i.e. little-endian on the
reference platform, field-wise copy at the declared offsets, which the
module's size test pins to exactly `SIZEOF_PHDR` bytes per record).
`copy_from_bytes` errors when the buffer is shorter than the records it must
fill, and `from_bytes` turns that error into a panic via
`.expect("buffer is too short for given number of entries")`; the panic is
modelled as `none`. -/
def from_bytes (bytes : List Nat) (phnum : Nat) :
    Option (List ProgramHeader) :=
  if bytes.length < phnum * SIZEOF_PHDR then
    none
  else
    some ((List.range phnum).map (fun i =>
      match ProgramHeader.tryFromCtx .little (bytes.drop (i * SIZEOF_PHDR)) with
      | .ok p => p.1
      | .error _ => ⟨0, 0, 0, 0, 0, 0, 0, 0⟩))

end program_header64

/-- `SizeWith` for the canonical program header: the wire size selected by
the context's width. -/
def ProgramHeader.size_with (ctx : Ctx) : Nat :=
  match ctx.container with
  | .little => program_header32.SIZEOF_PHDR
  | .big => program_header64.SIZEOF_PHDR

/-- `TryFromCtx` for the canonical program header (read-one): dispatch on the
context width, read the wire variant at the start of the byte slice, widen,
and report the wire variant's constant size as consumed. -/
def ProgramHeader.try_from_ctx (bytes : List Nat) (ctx : Ctx) :
    Except Error (ProgramHeader × Nat) :=
  match ctx.container with
  | .little =>
      (program_header32.ProgramHeader.tryFromCtx ctx.le bytes).map
        (fun p => (p.1.toElf, program_header32.SIZEOF_PHDR))
  | .big =>
      (program_header64.ProgramHeader.tryFromCtx ctx.le bytes).map
        (fun p => (p.1.toElf, program_header64.SIZEOF_PHDR))

/-- `TryIntoCtx` for the canonical program header (write-one): narrow to the
wire variant selected by the context width and write it at the start of the
buffer, failing when the buffer is too short; returns the updated buffer
together with the number of bytes written. -/
def ProgramHeader.try_into_ctx (self : ProgramHeader) (bytes : List Nat)
    (ctx : Ctx) : Except Error (List Nat × Nat) :=
  match ctx.container with
  | .little =>
      let phdr := program_header32.ProgramHeader.ofElf self
      if program_header32.SIZEOF_PHDR ≤ bytes.length then
        .ok (program_header32.ProgramHeader.encode ctx.le phdr ++
              bytes.drop program_header32.SIZEOF_PHDR,
             program_header32.SIZEOF_PHDR)
      else
        .error (.badInput bytes.length)
  | .big =>
      let phdr := program_header64.ProgramHeader.ofElf self
      if program_header64.SIZEOF_PHDR ≤ bytes.length then
        .ok (program_header64.ProgramHeader.encode ctx.le phdr ++
              bytes.drop program_header64.SIZEOF_PHDR,
             program_header64.SIZEOF_PHDR)
      else
        .error (.badInput bytes.length)

/-- `scroll`'s `pread_with` for the canonical program header: bounds-check
the offset, then run `try_from_ctx` on the suffix starting there. -/
def ProgramHeader.pread_with (bytes : List Nat) (offset : Nat) (ctx : Ctx) :
    Except Error ProgramHeader :=
  if bytes.length ≤ offset then
    .error (.badOffset offset)
  else
    (ProgramHeader.try_from_ctx (bytes.drop offset) ctx).map Prod.fst

/-- `ProgramHeader::to_range`: `p_offset as usize .. p_offset as usize +
p_filesz as usize` on a 64-bit platform, where `usize` addition wraps
mod `2 ^ 64`. -/
def ProgramHeader.to_range (self : ProgramHeader) : Nat × Nat :=
  (self.p_offset % U64, (self.p_offset % U64 + self.p_filesz % U64) % U64)

/-- The canonical header's numeric fields all lie in the range representable
by the wire variant selected by the context. -/
def ProgramHeader.inRange (ctx : Ctx) (h : ProgramHeader) : Prop :=
  h.p_type < U32 ∧ h.p_flags < U32 ∧
  match ctx.container with
  | .little =>
      h.p_offset < U32 ∧ h.p_vaddr < U32 ∧ h.p_paddr < U32 ∧
      h.p_filesz < U32 ∧ h.p_memsz < U32 ∧ h.p_align < U32
  | .big =>
      h.p_offset < U64 ∧ h.p_vaddr < U64 ∧ h.p_paddr < U64 ∧
      h.p_filesz < U64 ∧ h.p_memsz < U64 ∧ h.p_align < U64

instance (ctx : Ctx) (h : ProgramHeader) : Decidable (h.inRange ctx) := by
  unfold ProgramHeader.inRange
  cases ctx.container <;> exact inferInstance

-- ## Mach-O nlist symbols (`src/mach/symbols.rs`)

/-- `N_STAB`: if any of these bits is set, a symbolic debugging entry. -/
def N_STAB : Nat := 0xe0

/-- `N_TYPE`: mask for the type bits. -/
def N_TYPE : Nat := 0x0e

/-- `N_EXT`: external symbol bit. -/
def N_EXT : Nat := 0x01

/-- `N_UNDF`: undefined, `n_sect == NO_SECT`. -/
def N_UNDF : Nat := 0x0

/-- 32-bit wire symbol entry (`Nlist32`): `u32` string index, `u8` type,
`u8` section, `u16` descriptor, `u32` value. -/
structure Nlist32 where
  n_strx : Nat
  n_type : Nat
  n_sect : Nat
  n_desc : Nat
  n_value : Nat
deriving DecidableEq, Repr

/-- `SIZEOF_NLIST_32` -/
def SIZEOF_NLIST_32 : Nat := 12

/-- 64-bit wire symbol entry (`Nlist64`): as `Nlist32` but with a `u64`
value. -/
structure Nlist64 where
  n_strx : Nat
  n_type : Nat
  n_sect : Nat
  n_desc : Nat
  n_value : Nat
deriving DecidableEq, Repr

/-- `SIZEOF_NLIST_64` -/
def SIZEOF_NLIST_64 : Nat := 16

/-- Canonical symbol entry (`Nlist`): `usize` string index and section,
`u8` type, `u16` descriptor, `u64` value. -/
structure Nlist where
  n_strx : Nat
  n_type : Nat
  n_sect : Nat
  n_desc : Nat
  n_value : Nat
deriving DecidableEq, Repr

/-- `Nlist::get_type`: the type bits `n_type & N_TYPE`. -/
def Nlist.get_type (self : Nlist) : Nat :=
  self.n_type &&& N_TYPE

/-- `Nlist::is_global`: `n_type & N_EXT != 0`. -/
def Nlist.is_global (self : Nlist) : Bool :=
  self.n_type &&& N_EXT != 0

/-- `Nlist::is_undefined`: `n_sect == 0 && n_type & N_TYPE == N_UNDF`. -/
def Nlist.is_undefined (self : Nlist) : Bool :=
  self.n_sect == 0 && self.n_type &&& N_TYPE == N_UNDF

/-- `Nlist::is_stab`: `n_type & N_STAB != 0`. -/
def Nlist.is_stab (self : Nlist) : Bool :=
  self.n_type &&& N_STAB != 0

/-- `SizeWith` for the canonical symbol entry: the wire size selected by the
context's width. -/
def Nlist.size_with (ctx : Ctx) : Nat :=
  match ctx.container with
  | .little => SIZEOF_NLIST_32
  | .big => SIZEOF_NLIST_64

/-- `From<Nlist32> for Nlist`: widening, value-preserving. -/
def Nlist32.toNlist (nlist : Nlist32) : Nlist :=
  { n_strx := nlist.n_strx
    n_type := nlist.n_type
    n_sect := nlist.n_sect
    n_desc := nlist.n_desc
    n_value := nlist.n_value }

/-- `From<Nlist64> for Nlist`: widening, value-preserving. -/
def Nlist64.toNlist (nlist : Nlist64) : Nlist :=
  { n_strx := nlist.n_strx
    n_type := nlist.n_type
    n_sect := nlist.n_sect
    n_desc := nlist.n_desc
    n_value := nlist.n_value }

/-- Derived `Pread` for `Nlist32`: sequential reads of 4-, 1-, 1-, 2- and
4-byte fields. -/
def Nlist32.tryFromCtx (e : Endian) (buf : List Nat) :
    Except Error (Nlist32 × Nat) := do
  let (strx, b) ← takeField e 4 buf
  let (ty, b) ← takeField e 1 b
  let (sect, b) ← takeField e 1 b
  let (desc, b) ← takeField e 2 b
  let (v, _) ← takeField e 4 b
  pure (⟨strx, ty, sect, desc, v⟩, SIZEOF_NLIST_32)

/-- Derived `Pread` for `Nlist64`: as `Nlist32` but with an 8-byte value. -/
def Nlist64.tryFromCtx (e : Endian) (buf : List Nat) :
    Except Error (Nlist64 × Nat) := do
  let (strx, b) ← takeField e 4 buf
  let (ty, b) ← takeField e 1 b
  let (sect, b) ← takeField e 1 b
  let (desc, b) ← takeField e 2 b
  let (v, _) ← takeField e 8 b
  pure (⟨strx, ty, sect, desc, v⟩, SIZEOF_NLIST_64)

/-- `TryFromCtx` for the canonical symbol entry (read-one): dispatch on the
context width, read the wire variant, widen, and report the wire variant's
constant size as consumed. -/
def Nlist.try_from_ctx (bytes : List Nat) (ctx : Ctx) :
    Except Error (Nlist × Nat) :=
  match ctx.container with
  | .little =>
      (Nlist32.tryFromCtx ctx.le bytes).map
        (fun p => (p.1.toNlist, SIZEOF_NLIST_32))
  | .big =>
      (Nlist64.tryFromCtx ctx.le bytes).map
        (fun p => (p.1.toNlist, SIZEOF_NLIST_64))

/-- `scroll`'s `gread_with` for `Nlist`: bounds-check the offset, read at it,
and return the value together with the advanced offset (`gread` advances the
caller's cursor only on success). -/
def Nlist.gread_with (data : List Nat) (offset : Nat) (ctx : Ctx) :
    Except Error (Nlist × Nat) :=
  if data.length ≤ offset then
    .error (.badOffset offset)
  else
    (Nlist.try_from_ctx (data.drop offset) ctx).map
      (fun p => (p.1, offset + p.2))

/-- `scroll`'s `pread_with` for `Nlist`: as `gread_with` but the advanced
offset is discarded. -/
def Nlist.pread_with (data : List Nat) (offset : Nat) (ctx : Ctx) :
    Except Error Nlist :=
  (Nlist.gread_with data offset ctx).map Prod.fst

/-- `scroll`'s `pread` of a null-terminated `&str` at `offset` (the string
blob collaborator contract, spec §6): fails when the offset is past the end
or when no terminator occurs before the buffer ends; the name is the byte
run strictly before the terminator. -/
def preadStr (data : List Nat) (offset : Nat) : Except Error (List Nat) :=
  if data.length ≤ offset then
    .error (.badOffset offset)
  else
    let rest := data.drop offset
    let name := rest.takeWhile (fun b => b != 0)
    if name.length < rest.length then .ok name else .error (.badOffset offset)

/-- `SymbolsCtx`: explicit construction parameters for a symbol table view. -/
structure SymbolsCtx where
  nsyms : Nat
  strtab : Nat
  ctx : Ctx
deriving DecidableEq, Repr

/-- Modelled from the spec: `mach::load_command::SymtabCommand` is declared
in `load_command.rs`, which is not part of the excerpt.  Per spec §6 the
descriptor/command source supplies the symbol-table offset (`symoff`), the
symbol count (`nsyms`) and the string-table offset (`stroff`) as plain
(`u32`) integers. -/
structure SymtabCommand where
  symoff : Nat
  nsyms : Nat
  stroff : Nat
deriving DecidableEq, Repr

/-- The zero-copy symbol table view (`Symbols`). -/
structure Symbols where
  data : List Nat
  start : Nat
  nsyms : Nat
  strtab : Nat
  ctx : Ctx
deriving DecidableEq, Repr

/-- `TryFromCtx<SymbolsCtx>` for `Symbols`: wraps the byte slice it is
handed, with `start` 0, reporting the whole slice as consumed; it never
fails. -/
def Symbols.try_from_ctx (bytes : List Nat) (c : SymbolsCtx) :
    Except Error (Symbols × Nat) :=
  .ok ({ data := bytes
         start := 0
         nsyms := c.nsyms
         strtab := c.strtab
         ctx := c.ctx }, bytes.length)

/-- `Symbols::parse`: normalizes the string-table offset to
`symtab.stroff - symtab.symoff` (wrapping `u32` subtraction, as in release
builds) and reads a `Symbols` at offset `symtab.symoff` via `pread_with`,
which hands the constructor the suffix of the buffer starting there. -/
def Symbols.parse (bytes : List Nat) (symtab : SymtabCommand) (ctx : Ctx) :
    Except Error Symbols :=
  let strtab := (symtab.stroff + U32 - symtab.symoff) % U32
  if bytes.length ≤ symtab.symoff then
    .error (.badOffset symtab.symoff)
  else
    (Symbols.try_from_ctx (bytes.drop symtab.symoff)
      ⟨symtab.nsyms, strtab, ctx⟩).map Prod.fst

/-- One sequence element of the symbol iterator: a (name, entry) pair or a
per-entry error. -/
def SymItem : Type := Except Error (List Nat × Nlist)

instance {ε α : Type} [DecidableEq ε] [DecidableEq α] :
    DecidableEq (Except ε α) := fun a b =>
  match a, b with
  | .ok a, .ok b =>
      if h : a = b then .isTrue (by rw [h]) else
        .isFalse (fun hc => h (Except.ok.inj hc))
  | .error a, .error b =>
      if h : a = b then .isTrue (by rw [h]) else
        .isFalse (fun hc => h (Except.error.inj hc))
  | .ok _, .error _ => .isFalse (fun hc => Except.noConfusion hc)
  | .error _, .ok _ => .isFalse (fun hc => Except.noConfusion hc)

instance : DecidableEq SymItem := by
  unfold SymItem
  exact inferInstance

/-- The single-pass symbol iterator (`SymbolIterator`). -/
structure SymbolIterator where
  data : List Nat
  nsyms : Nat
  offset : Nat
  count : Nat
  ctx : Ctx
  strtab : Nat
deriving DecidableEq, Repr

/-- `SymbolIterator::next` (`Iterator::next`): `none` once `count` reaches
`nsyms`; otherwise increment `count`, `gread` one `Nlist` at the private
cursor (which advances only on success), resolve its name at
`strtab + n_strx`, and yield the pair or the error encountered. -/
def SymbolIterator.next (self : SymbolIterator) :
    Option (SymItem × SymbolIterator) :=
  if self.nsyms ≤ self.count then
    none
  else
    match Nlist.gread_with self.data self.offset self.ctx with
    | .ok (symbol, newOffset) =>
        let stepped :=
          { self with count := self.count + 1, offset := newOffset }
        match preadStr self.data (self.strtab + symbol.n_strx) with
        | .ok name => some (.ok (name, symbol), stepped)
        | .error e => some (.error e, stepped)
    | .error e => some (.error e, { self with count := self.count + 1 })

/-- `Symbols::iter`: a fresh single-pass iterator over the view. -/
def Symbols.iter (self : Symbols) : SymbolIterator :=
  { offset := self.start
    nsyms := self.nsyms
    count := 0
    data := self.data
    ctx := self.ctx
    strtab := self.strtab }

/-- Run the iterator for at most `k` steps, collecting the emitted items and
returning the final iterator state. -/
def SymbolIterator.steps : SymbolIterator → Nat → List SymItem × SymbolIterator
  | it, 0 => ([], it)
  | it, k + 1 =>
      match it.next with
      | none => ([], it)
      | some (x, it2) =>
          let r := it2.steps k
          (x :: r.1, r.2)

/-- The iterator state after one step (identity when exhausted). -/
def SymbolIterator.advance (it : SymbolIterator) : SymbolIterator :=
  match it.next with
  | none => it
  | some p => p.2

/-- The item emitted at the `i`-th sequence step (`none` when the sequence
has already ended). -/
def SymbolIterator.item (it : SymbolIterator) (i : Nat) : Option SymItem :=
  (SymbolIterator.advance^[i] it).next.map Prod.fst

/-- `Symbols::get`: indexed random access; reads one `Nlist` at
`start + index * size_with(ctx)` and resolves its name, with no check of
`index` against the declared count. -/
def Symbols.get (self : Symbols) (index : Nat) :
    Except Error (List Nat × Nlist) := do
  let sym ← Nlist.pread_with self.data
    (self.start + index * Nlist.size_with self.ctx) self.ctx
  let name ← preadStr self.data (self.strtab + sym.n_strx)
  pure (name, sym)

-- ## Helper lemmas about the byte-field codec

theorem bytesLE_length (w v : Nat) : (bytesLE w v).length = w := by
  induction w generalizing v with
  | zero => rfl
  | succ w ih => simp [bytesLE, ih]

theorem encodeField_length (e : Endian) (w v : Nat) :
    (encodeField e w v).length = w := by
  cases e <;> simp [encodeField, bytesLE_length]

theorem decodeLE_bytesLE (w v : Nat) :
    decodeLE (bytesLE w v) = v % 2 ^ (8 * w) := by
  induction w generalizing v with
  | zero => simp [bytesLE, decodeLE, Nat.mod_one]
  | succ w ih =>
      have h256 : (256 : Nat) = 2 ^ 8 := by norm_num
      calc decodeLE (bytesLE (w + 1) v)
          = v % 256 + 256 * (v / 256 % 2 ^ (8 * w)) := by
            simp [bytesLE, decodeLE, ih]
        _ = v % (256 * 2 ^ (8 * w)) := (Nat.mod_mul).symm
        _ = v % 2 ^ (8 * (w + 1)) := by
            rw [h256, ← pow_add]
            ring_nf

theorem decodeField_encodeField (e : Endian) (w v : Nat) :
    decodeField e (encodeField e w v) = v % 2 ^ (8 * w) := by
  cases e <;> simp [decodeField, encodeField, decodeLE_bytesLE]

/-- A sequential field read on a buffer whose prefix has exactly the field's
width decodes that prefix and leaves the rest. -/
theorem takeField_exact (e : Endian) (w : Nat) (l rest : List Nat)
    (h : l.length = w) :
    takeField e w (l ++ rest) = .ok (decodeField e l, rest) := by
  subst h
  simp [takeField, List.take_left, List.drop_left]

/-- Reading a field from a buffer that starts with that field's encoding
recovers the value modulo the field width and leaves the rest. -/
theorem takeField_encode (e : Endian) (w v : Nat) (rest : List Nat) :
    takeField e w (encodeField e w v ++ rest) =
      .ok (v % 2 ^ (8 * w), rest) := by
  rw [takeField_exact e w _ rest (encodeField_length e w v),
    decodeField_encodeField]

-- ## Generic success-analysis lemmas for the sequential readers

theorem except_bind_eq_ok {ε α β : Type} {x : Except ε α} {f : α → Except ε β}
    {y : β} (h : Except.bind x f = .ok y) : ∃ a, x = .ok a ∧ f a = .ok y := by
  cases x with
  | ok a => exact ⟨a, rfl, h⟩
  | error e => simp [Except.bind] at h

theorem takeField_eq_ok {e : Endian} {w : Nat} {buf : List Nat} {v : Nat}
    {rest : List Nat} (h : takeField e w buf = .ok (v, rest)) :
    w ≤ buf.length ∧ rest = buf.drop w := by
  unfold takeField at h
  by_cases hw : w ≤ buf.length
  · rw [if_pos hw] at h
    cases h
    exact ⟨hw, rfl⟩
  · rw [if_neg hw] at h
    cases h

/-- A successful 32-bit program header read needs the full 32 bytes and
consumes exactly them. -/
theorem ph32_tryFromCtx_ok {e : Endian} {buf : List Nat}
    {r : program_header32.ProgramHeader × Nat}
    (h : program_header32.ProgramHeader.tryFromCtx e buf = .ok r) :
    program_header32.SIZEOF_PHDR ≤ buf.length ∧
      r.2 = program_header32.SIZEOF_PHDR := by
  unfold program_header32.ProgramHeader.tryFromCtx at h
  simp only [bind] at h
  obtain ⟨⟨v1, b1⟩, h1, h⟩ := except_bind_eq_ok h
  obtain ⟨⟨v2, b2⟩, h2, h⟩ := except_bind_eq_ok h
  obtain ⟨⟨v3, b3⟩, h3, h⟩ := except_bind_eq_ok h
  obtain ⟨⟨v4, b4⟩, h4, h⟩ := except_bind_eq_ok h
  obtain ⟨⟨v5, b5⟩, h5, h⟩ := except_bind_eq_ok h
  obtain ⟨⟨v6, b6⟩, h6, h⟩ := except_bind_eq_ok h
  obtain ⟨⟨v7, b7⟩, h7, h⟩ := except_bind_eq_ok h
  obtain ⟨⟨v8, b8⟩, h8, h⟩ := except_bind_eq_ok h
  obtain ⟨k1, e1⟩ := takeField_eq_ok h1
  obtain ⟨k2, e2⟩ := takeField_eq_ok h2
  obtain ⟨k3, e3⟩ := takeField_eq_ok h3
  obtain ⟨k4, e4⟩ := takeField_eq_ok h4
  obtain ⟨k5, e5⟩ := takeField_eq_ok h5
  obtain ⟨k6, e6⟩ := takeField_eq_ok h6
  obtain ⟨k7, e7⟩ := takeField_eq_ok h7
  obtain ⟨k8, e8⟩ := takeField_eq_ok h8
  subst e1 e2 e3 e4 e5 e6 e7
  simp only [List.length_drop] at k2 k3 k4 k5 k6 k7 k8
  cases h
  exact ⟨by unfold program_header32.SIZEOF_PHDR; omega, rfl⟩

/-- A successful 64-bit program header read needs the full 56 bytes and
consumes exactly them. -/
theorem ph64_tryFromCtx_ok {e : Endian} {buf : List Nat}
    {r : program_header64.ProgramHeader × Nat}
    (h : program_header64.ProgramHeader.tryFromCtx e buf = .ok r) :
    program_header64.SIZEOF_PHDR ≤ buf.length ∧
      r.2 = program_header64.SIZEOF_PHDR := by
  unfold program_header64.ProgramHeader.tryFromCtx at h
  simp only [bind] at h
  obtain ⟨⟨v1, b1⟩, h1, h⟩ := except_bind_eq_ok h
  obtain ⟨⟨v2, b2⟩, h2, h⟩ := except_bind_eq_ok h
  obtain ⟨⟨v3, b3⟩, h3, h⟩ := except_bind_eq_ok h
  obtain ⟨⟨v4, b4⟩, h4, h⟩ := except_bind_eq_ok h
  obtain ⟨⟨v5, b5⟩, h5, h⟩ := except_bind_eq_ok h
  obtain ⟨⟨v6, b6⟩, h6, h⟩ := except_bind_eq_ok h
  obtain ⟨⟨v7, b7⟩, h7, h⟩ := except_bind_eq_ok h
  obtain ⟨⟨v8, b8⟩, h8, h⟩ := except_bind_eq_ok h
  obtain ⟨k1, e1⟩ := takeField_eq_ok h1
  obtain ⟨k2, e2⟩ := takeField_eq_ok h2
  obtain ⟨k3, e3⟩ := takeField_eq_ok h3
  obtain ⟨k4, e4⟩ := takeField_eq_ok h4
  obtain ⟨k5, e5⟩ := takeField_eq_ok h5
  obtain ⟨k6, e6⟩ := takeField_eq_ok h6
  obtain ⟨k7, e7⟩ := takeField_eq_ok h7
  obtain ⟨k8, e8⟩ := takeField_eq_ok h8
  subst e1 e2 e3 e4 e5 e6 e7
  simp only [List.length_drop] at k2 k3 k4 k5 k6 k7 k8
  cases h
  exact ⟨by unfold program_header64.SIZEOF_PHDR; omega, rfl⟩

/-- A successful 32-bit symbol entry read needs the full 12 bytes and
consumes exactly them. -/
theorem nl32_tryFromCtx_ok {e : Endian} {buf : List Nat}
    {r : Nlist32 × Nat} (h : Nlist32.tryFromCtx e buf = .ok r) :
    SIZEOF_NLIST_32 ≤ buf.length ∧ r.2 = SIZEOF_NLIST_32 := by
  unfold Nlist32.tryFromCtx at h
  simp only [bind] at h
  obtain ⟨⟨v1, b1⟩, h1, h⟩ := except_bind_eq_ok h
  obtain ⟨⟨v2, b2⟩, h2, h⟩ := except_bind_eq_ok h
  obtain ⟨⟨v3, b3⟩, h3, h⟩ := except_bind_eq_ok h
  obtain ⟨⟨v4, b4⟩, h4, h⟩ := except_bind_eq_ok h
  obtain ⟨⟨v5, b5⟩, h5, h⟩ := except_bind_eq_ok h
  obtain ⟨k1, e1⟩ := takeField_eq_ok h1
  obtain ⟨k2, e2⟩ := takeField_eq_ok h2
  obtain ⟨k3, e3⟩ := takeField_eq_ok h3
  obtain ⟨k4, e4⟩ := takeField_eq_ok h4
  obtain ⟨k5, e5⟩ := takeField_eq_ok h5
  subst e1 e2 e3 e4
  simp only [List.length_drop] at k2 k3 k4 k5
  cases h
  exact ⟨by unfold SIZEOF_NLIST_32; omega, rfl⟩

/-- A successful 64-bit symbol entry read needs the full 16 bytes and
consumes exactly them. -/
theorem nl64_tryFromCtx_ok {e : Endian} {buf : List Nat}
    {r : Nlist64 × Nat} (h : Nlist64.tryFromCtx e buf = .ok r) :
    SIZEOF_NLIST_64 ≤ buf.length ∧ r.2 = SIZEOF_NLIST_64 := by
  unfold Nlist64.tryFromCtx at h
  simp only [bind] at h
  obtain ⟨⟨v1, b1⟩, h1, h⟩ := except_bind_eq_ok h
  obtain ⟨⟨v2, b2⟩, h2, h⟩ := except_bind_eq_ok h
  obtain ⟨⟨v3, b3⟩, h3, h⟩ := except_bind_eq_ok h
  obtain ⟨⟨v4, b4⟩, h4, h⟩ := except_bind_eq_ok h
  obtain ⟨⟨v5, b5⟩, h5, h⟩ := except_bind_eq_ok h
  obtain ⟨k1, e1⟩ := takeField_eq_ok h1
  obtain ⟨k2, e2⟩ := takeField_eq_ok h2
  obtain ⟨k3, e3⟩ := takeField_eq_ok h3
  obtain ⟨k4, e4⟩ := takeField_eq_ok h4
  obtain ⟨k5, e5⟩ := takeField_eq_ok h5
  subst e1 e2 e3 e4
  simp only [List.length_drop] at k2 k3 k4 k5
  cases h
  exact ⟨by unfold SIZEOF_NLIST_64; omega, rfl⟩

/-- A successful canonical program header read needs the context-selected
wire size and consumes exactly it. -/
theorem programHeader_try_from_ctx_ok {bytes : List Nat} {ctx : Ctx}
    {r : ProgramHeader × Nat}
    (h : ProgramHeader.try_from_ctx bytes ctx = .ok r) :
    ProgramHeader.size_with ctx ≤ bytes.length ∧
      r.2 = ProgramHeader.size_with ctx := by
  obtain ⟨c, e⟩ := ctx
  cases c <;>
    simp only [ProgramHeader.try_from_ctx, ProgramHeader.size_with] at h ⊢
  · cases hx : program_header32.ProgramHeader.tryFromCtx e bytes with
    | error err => rw [hx] at h; simp [Except.map] at h
    | ok a =>
        rw [hx] at h
        simp only [Except.map] at h
        cases h
        exact ⟨(ph32_tryFromCtx_ok hx).1, rfl⟩
  · cases hx : program_header64.ProgramHeader.tryFromCtx e bytes with
    | error err => rw [hx] at h; simp [Except.map] at h
    | ok a =>
        rw [hx] at h
        simp only [Except.map] at h
        cases h
        exact ⟨(ph64_tryFromCtx_ok hx).1, rfl⟩

/-- A successful canonical symbol entry read needs the context-selected wire
size and consumes exactly it. -/
theorem nlist_try_from_ctx_ok {bytes : List Nat} {ctx : Ctx}
    {r : Nlist × Nat} (h : Nlist.try_from_ctx bytes ctx = .ok r) :
    Nlist.size_with ctx ≤ bytes.length ∧ r.2 = Nlist.size_with ctx := by
  obtain ⟨c, e⟩ := ctx
  cases c <;>
    simp only [Nlist.try_from_ctx, Nlist.size_with] at h ⊢
  · cases hx : Nlist32.tryFromCtx e bytes with
    | error err => rw [hx] at h; simp [Except.map] at h
    | ok a =>
        rw [hx] at h
        simp only [Except.map] at h
        cases h
        exact ⟨(nl32_tryFromCtx_ok hx).1, rfl⟩
  · cases hx : Nlist64.tryFromCtx e bytes with
    | error err => rw [hx] at h; simp [Except.map] at h
    | ok a =>
        rw [hx] at h
        simp only [Except.map] at h
        cases h
        exact ⟨(nl64_tryFromCtx_ok hx).1, rfl⟩

/-- A read-one of a program header at an offset with fewer than the wire
size of bytes remaining returns an error value. -/
theorem programHeader_pread_short (buf : List Nat) (offset : Nat)
    (ctx : Ctx) (h : buf.length - offset < ProgramHeader.size_with ctx) :
    ∃ e, ProgramHeader.pread_with buf offset ctx = .error e := by
  unfold ProgramHeader.pread_with
  split_ifs with hoff
  · exact ⟨.badOffset offset, rfl⟩
  · cases hx : ProgramHeader.try_from_ctx (buf.drop offset) ctx with
    | error err => exact ⟨err, rfl⟩
    | ok a =>
        exfalso
        have hk := (programHeader_try_from_ctx_ok hx).1
        simp only [List.length_drop] at hk
        omega

/-- A read-one of a symbol entry at an offset with fewer than the wire size
of bytes remaining returns an error value. -/
theorem nlist_pread_short (buf : List Nat) (offset : Nat) (ctx : Ctx)
    (h : buf.length - offset < Nlist.size_with ctx) :
    ∃ e, Nlist.pread_with buf offset ctx = .error e := by
  unfold Nlist.pread_with Nlist.gread_with
  split_ifs with hoff
  · exact ⟨.badOffset offset, rfl⟩
  · cases hx : Nlist.try_from_ctx (buf.drop offset) ctx with
    | error err => exact ⟨err, rfl⟩
    | ok a =>
        exfalso
        have hk := (nlist_try_from_ctx_ok hx).1
        simp only [List.length_drop] at hk
        omega

/-- `next` reports exhaustion exactly when the private step counter has
reached the declared count. -/
theorem SymbolIterator.next_eq_none_iff (it : SymbolIterator) :
    it.next = none ↔ it.nsyms ≤ it.count := by
  unfold SymbolIterator.next
  split_ifs with hc
  · simpa using hc
  · constructor
    · intro h
      exfalso
      revert h
      cases hg : Nlist.gread_with it.data it.offset it.ctx with
      | error e => simp
      | ok p =>
          obtain ⟨symbol, newOffset⟩ := p
          cases hs : preadStr it.data (it.strtab + symbol.n_strx) <;>
            simp [hs]
    · intro h
      exact absurd h hc

/-- A produced step leaves the buffer, context, count bound and string table
untouched and increments the step counter by exactly one, whether or not the
step succeeded. -/
theorem SymbolIterator.next_some_state {it : SymbolIterator} {x : SymItem}
    {it2 : SymbolIterator} (h : it.next = some (x, it2)) :
    it.count < it.nsyms ∧ it2.count = it.count + 1 ∧
      it2.nsyms = it.nsyms ∧ it2.data = it.data ∧ it2.ctx = it.ctx ∧
      it2.strtab = it.strtab := by
  unfold SymbolIterator.next at h
  split_ifs at h with hc
  refine ⟨by omega, ?_⟩
  revert h
  cases hg : Nlist.gread_with it.data it.offset it.ctx with
  | error e =>
      intro h
      cases h
      exact ⟨rfl, rfl, rfl, rfl, rfl⟩
  | ok p =>
      obtain ⟨symbol, newOffset⟩ := p
      intro h
      dsimp only at h
      cases hs : preadStr it.data (it.strtab + symbol.n_strx) with
      | ok name =>
          rw [hs] at h
          cases h
          exact ⟨rfl, rfl, rfl, rfl, rfl⟩
      | error e2 =>
          rw [hs] at h
          cases h
          exact ⟨rfl, rfl, rfl, rfl, rfl⟩

/-- Running `k` steps yields `min k (nsyms - count)` items. -/
theorem SymbolIterator.steps_length (it : SymbolIterator) (k : Nat) :
    (it.steps k).1.length = min k (it.nsyms - it.count) := by
  induction k generalizing it with
  | zero => simp [SymbolIterator.steps]
  | succ k ih =>
      unfold SymbolIterator.steps
      cases hn : it.next with
      | none =>
          have hend := (SymbolIterator.next_eq_none_iff it).mp hn
          simp only [List.length_nil]
          omega
      | some p =>
          obtain ⟨x, it2⟩ := p
          obtain ⟨hlt, hcnt, hnsyms, -⟩ := SymbolIterator.next_some_state hn
          simp only [List.length_cons, ih it2, hcnt, hnsyms]
          omega

/-- Running `k` steps advances the step counter to `min (count + k) nsyms`
and preserves the count bound. -/
theorem SymbolIterator.steps_count (it : SymbolIterator) (k : Nat)
    (hc : it.count ≤ it.nsyms) :
    (it.steps k).2.nsyms = it.nsyms ∧
      (it.steps k).2.count = min (it.count + k) it.nsyms := by
  induction k generalizing it with
  | zero =>
      refine ⟨rfl, ?_⟩
      simp [SymbolIterator.steps]
      omega
  | succ k ih =>
      unfold SymbolIterator.steps
      cases hn : it.next with
      | none =>
          have hend := (SymbolIterator.next_eq_none_iff it).mp hn
          refine ⟨rfl, ?_⟩
          show it.count = min (it.count + (k + 1)) it.nsyms
          omega
      | some p =>
          obtain ⟨x, it2⟩ := p
          obtain ⟨hlt, hcnt, hnsyms, -⟩ := SymbolIterator.next_some_state hn
          obtain ⟨ihn, ihc⟩ := ih it2 (by omega)
          refine ⟨by simpa [hnsyms] using ihn, ?_⟩
          simp only [ihc, hcnt, hnsyms]
          omega

/-- A successful `gread` advances the cursor by exactly the context-selected
wire size. -/
theorem Nlist.gread_with_ok {data : List Nat} {offset : Nat} {ctx : Ctx}
    {sym : Nlist} {noff : Nat}
    (h : Nlist.gread_with data offset ctx = .ok (sym, noff)) :
    noff = offset + Nlist.size_with ctx := by
  unfold Nlist.gread_with at h
  split_ifs at h with hoff
  cases hx : Nlist.try_from_ctx (data.drop offset) ctx with
  | error e => rw [hx] at h; simp [Except.map] at h
  | ok p =>
      rw [hx] at h
      simp only [Except.map] at h
      cases h
      have h2 := (nlist_try_from_ctx_ok hx).2
      omega

/-- When the first `k` steps of a fresh iterator over `v` all succeed, the
state after `k` steps has counted `k` entries and its private cursor sits at
`start + k * size_with(ctx)`. -/
theorem iter_state_after_ok_steps (v : Symbols) (k : Nat)
    (hk : k ≤ v.nsyms)
    (hok : ∀ j, j < k → ∃ p, (v.iter).item j = some (.ok p)) :
    SymbolIterator.advance^[k] (v.iter) =
      { data := v.data, nsyms := v.nsyms,
        offset := v.start + k * Nlist.size_with v.ctx, count := k,
        ctx := v.ctx, strtab := v.strtab } := by
  induction k with
  | zero => simp [Symbols.iter]
  | succ k ih =>
      have hst := ih (by omega) (fun j hj => hok j (by omega))
      obtain ⟨p, hp⟩ := hok k (by omega)
      rw [SymbolIterator.item, hst] at hp
      rw [Function.iterate_succ_apply', hst]
      unfold SymbolIterator.advance
      unfold SymbolIterator.next at hp ⊢
      dsimp only at hp ⊢
      rw [if_neg (show ¬ v.nsyms ≤ k by omega)] at hp ⊢
      cases hg : Nlist.gread_with v.data
          (v.start + k * Nlist.size_with v.ctx) v.ctx with
      | error e =>
          rw [hg] at hp
          simp at hp
      | ok q =>
          obtain ⟨sym, noff⟩ := q
          rw [hg] at hp
          dsimp only at hp ⊢
          cases hs : preadStr v.data (v.strtab + sym.n_strx) with
          | error e =>
              rw [hs] at hp
              simp at hp
          | ok name =>
              have hnoff := Nlist.gread_with_ok hg
              have hof : noff = v.start + (k + 1) * Nlist.size_with v.ctx := by
                rw [hnoff]; ring
              simp [hof]

-- ## Claim theorems

/-- C2: for every context, the canonical program header's `size_with` is 32
when the width is narrow (`Container::Little`) and 56 when wide
(`Container::Big`), and the canonical symbol entry's `size_with` is 12 when
narrow and 16 when wide; in each case the size is the same for both byte
orders, i.e. it depends only on the width component of the context. -/
theorem size_with_fixed (c : Container) (e e' : Endian) :
    ProgramHeader.size_with ⟨c, e⟩ =
      (match c with | .little => 32 | .big => 56) ∧
    Nlist.size_with ⟨c, e⟩ =
      (match c with | .little => 12 | .big => 16) ∧
    ProgramHeader.size_with ⟨c, e⟩ = ProgramHeader.size_with ⟨c, e'⟩ ∧
    Nlist.size_with ⟨c, e⟩ = Nlist.size_with ⟨c, e'⟩ := by
  cases c <;>
    simp [ProgramHeader.size_with, Nlist.size_with,
      program_header32.SIZEOF_PHDR, program_header64.SIZEOF_PHDR,
      SIZEOF_NLIST_32, SIZEOF_NLIST_64]

/-- C3: when fewer than the context-selected wire size of bytes remain at
`offset`, read-one on the program header (resp. the symbol entry) returns an
error, never a value. -/
theorem truncated_read_one_errors (buf : List Nat) (offset : Nat) (ctx : Ctx) :
    (buf.length - offset < ProgramHeader.size_with ctx →
      (ProgramHeader.pread_with buf offset ctx).isOk = false) ∧
    (buf.length - offset < Nlist.size_with ctx →
      (Nlist.pread_with buf offset ctx).isOk = false) := by
  constructor
  · intro hsz
    unfold ProgramHeader.pread_with
    split_ifs with hoff
    · rfl
    · cases hx : ProgramHeader.try_from_ctx (buf.drop offset) ctx with
      | error err => rfl
      | ok a =>
          exfalso
          have hk := (programHeader_try_from_ctx_ok hx).1
          simp only [List.length_drop] at hk
          omega
  · intro hsz
    unfold Nlist.pread_with Nlist.gread_with
    split_ifs with hoff
    · rfl
    · cases hx : Nlist.try_from_ctx (buf.drop offset) ctx with
      | error err => rfl
      | ok a =>
          exfalso
          have hk := (nlist_try_from_ctx_ok hx).1
          simp only [List.length_drop] at hk
          omega

theorem truncated_read_one_errors_witness :
    ((List.replicate 3 0 : List Nat).length - 0 <
        ProgramHeader.size_with ⟨.little, .little⟩ ∧
      (ProgramHeader.pread_with (List.replicate 3 0) 0
        ⟨.little, .little⟩).isOk = false) ∧
    ((List.replicate 3 0 : List Nat).length - 0 <
        Nlist.size_with ⟨.little, .little⟩ ∧
      (Nlist.pread_with (List.replicate 3 0) 0
        ⟨.little, .little⟩).isOk = false) :=
  ⟨⟨by decide,
    (truncated_read_one_errors (List.replicate 3 0) 0 ⟨.little, .little⟩).1
      (by decide)⟩,
   ⟨by decide,
    (truncated_read_one_errors (List.replicate 3 0) 0 ⟨.little, .little⟩).2
      (by decide)⟩⟩

/-- C8: an entry with raw type byte `0x01` and section ordinal 0 is global,
undefined and not a stab; in general `is_global` holds iff bit 0 of the type
byte is set, `is_stab` holds iff one of the bits of mask `0xe0` (bits 5-7)
is set, and `is_undefined` holds iff the section ordinal is 0 and the `0x0e`
type subfield equals 0. -/
theorem nlist_predicate_correctness (nl : Nlist) (h : nl.n_type < 256) :
    (nl.n_type = 0x01 → nl.n_sect = 0 →
      nl.is_global = true ∧ nl.is_undefined = true ∧ nl.is_stab = false) ∧
    (nl.is_global = true ↔ nl.n_type.testBit 0) ∧
    (nl.is_stab = true ↔
      (nl.n_type.testBit 5 ∨ nl.n_type.testBit 6 ∨ nl.n_type.testBit 7)) ∧
    (nl.is_undefined = true ↔ (nl.n_sect = 0 ∧ nl.n_type &&& 0x0e = 0)) := by
  obtain ⟨strx, ty, sect, desc, v⟩ := nl
  simp only [Nlist.is_global, Nlist.is_undefined, Nlist.is_stab,
    N_EXT, N_TYPE, N_STAB, N_UNDF] at *
  refine ⟨?_, ?_, ?_, ?_⟩
  · rintro rfl rfl
    decide
  · interval_cases ty <;> decide
  · interval_cases ty <;> decide
  · simp [Bool.and_eq_true, beq_iff_eq]

theorem nlist_predicate_correctness_witness :
    (⟨0, 1, 0, 0, 0⟩ : Nlist).n_type < 256 ∧
    ((⟨0, 1, 0, 0, 0⟩ : Nlist).is_global = true ∧
      (⟨0, 1, 0, 0, 0⟩ : Nlist).is_undefined = true ∧
      (⟨0, 1, 0, 0, 0⟩ : Nlist).is_stab = false) :=
  ⟨by decide,
   (nlist_predicate_correctness ⟨0, 1, 0, 0, 0⟩ (by decide)).1 rfl rfl⟩

/-- C9: whenever `p_offset + p_filesz` does not overflow the 64-bit `usize`
arithmetic, `to_range` is the half-open span
`[p_offset, p_offset + p_filesz)`. -/
theorem to_range_spec (ph : ProgramHeader)
    (h : ph.p_offset + ph.p_filesz < U64) :
    ph.to_range = (ph.p_offset, ph.p_offset + ph.p_filesz) := by
  have h1 : ph.p_offset < U64 := lt_of_le_of_lt (Nat.le_add_right _ _) h
  have h2 : ph.p_filesz < U64 := lt_of_le_of_lt (Nat.le_add_left _ _) h
  simp [ProgramHeader.to_range, Nat.mod_eq_of_lt h1, Nat.mod_eq_of_lt h2,
    Nat.mod_eq_of_lt h]

/-- C1: for every context and every canonical program header whose numeric
fields lie in the range representable by the context-selected wire variant,
writing the header with write-one into a sufficiently long buffer and then
reading the written bytes back with read-one under the same context returns
the original header (consuming exactly the wire size). -/
theorem programHeader_roundtrip (ctx : Ctx) (ph : ProgramHeader)
    (buf : List Nat) (hin : ph.inRange ctx)
    (hlen : ProgramHeader.size_with ctx ≤ buf.length) :
    (ph.try_into_ctx buf ctx).bind
        (fun p => ProgramHeader.try_from_ctx p.1 ctx) =
      .ok (ph, ProgramHeader.size_with ctx) := by
  obtain ⟨c, e⟩ := ctx
  cases c
  case little =>
    obtain ⟨ht, hfl, ho, hv, hp, hfs, hm, ha⟩ := hin
    simp only [U32] at ht hfl ho hv hp hfs hm ha
    norm_num at ht hfl ho hv hp hfs hm ha
    simp only [ProgramHeader.size_with, program_header32.SIZEOF_PHDR]
      at hlen ⊢
    simp [ProgramHeader.try_into_ctx, hlen,
      program_header32.ProgramHeader.ofElf,
      program_header32.ProgramHeader.encode, program_header32.SIZEOF_PHDR,
      ProgramHeader.try_from_ctx, program_header32.ProgramHeader.tryFromCtx,
      takeField_encode, program_header32.ProgramHeader.toElf, U32,
      Bind.bind, Except.bind, Functor.map, Except.map, pure, Except.pure,
      Nat.mod_eq_of_lt ht, Nat.mod_eq_of_lt hfl,
      Nat.mod_eq_of_lt ho, Nat.mod_eq_of_lt hv, Nat.mod_eq_of_lt hp,
      Nat.mod_eq_of_lt hfs, Nat.mod_eq_of_lt hm, Nat.mod_eq_of_lt ha]
  case big =>
    obtain ⟨ht, hfl, ho, hv, hp, hfs, hm, ha⟩ := hin
    simp only [U32, U64] at ht hfl ho hv hp hfs hm ha
    norm_num at ht hfl ho hv hp hfs hm ha
    simp only [ProgramHeader.size_with, program_header64.SIZEOF_PHDR]
      at hlen ⊢
    simp [ProgramHeader.try_into_ctx, hlen,
      program_header64.ProgramHeader.ofElf,
      program_header64.ProgramHeader.encode, program_header64.SIZEOF_PHDR,
      ProgramHeader.try_from_ctx, program_header64.ProgramHeader.tryFromCtx,
      takeField_encode, program_header64.ProgramHeader.toElf,
      Bind.bind, Except.bind, Functor.map, Except.map, pure, Except.pure,
      Nat.mod_eq_of_lt ht, Nat.mod_eq_of_lt hfl,
      Nat.mod_eq_of_lt ho, Nat.mod_eq_of_lt hv, Nat.mod_eq_of_lt hp,
      Nat.mod_eq_of_lt hfs, Nat.mod_eq_of_lt hm, Nat.mod_eq_of_lt ha]

theorem programHeader_roundtrip_witness :
    (⟨1, 5, 4096, 7, 8, 9, 10, 2097152⟩ : ProgramHeader).inRange
        ⟨.little, .little⟩ ∧
    ProgramHeader.size_with ⟨.little, .little⟩ ≤
        (List.replicate 32 0 : List Nat).length ∧
    ((⟨1, 5, 4096, 7, 8, 9, 10, 2097152⟩ : ProgramHeader).try_into_ctx
          (List.replicate 32 0) ⟨.little, .little⟩).bind
        (fun p => ProgramHeader.try_from_ctx p.1 ⟨.little, .little⟩) =
      .ok (⟨1, 5, 4096, 7, 8, 9, 10, 2097152⟩,
           ProgramHeader.size_with ⟨.little, .little⟩) :=
  ⟨by decide, by decide,
   programHeader_roundtrip ⟨.little, .little⟩ ⟨1, 5, 4096, 7, 8, 9, 10, 2097152⟩
     (List.replicate 32 0) (by decide) (by decide)⟩

theorem to_range_spec_witness :
    (⟨1, 0, 4096, 0, 0, 9, 0, 0⟩ : ProgramHeader).p_offset +
        (⟨1, 0, 4096, 0, 0, 9, 0, 0⟩ : ProgramHeader).p_filesz < U64 ∧
    (⟨1, 0, 4096, 0, 0, 9, 0, 0⟩ : ProgramHeader).to_range = (4096, 4105) :=
  ⟨by decide, to_range_spec ⟨1, 0, 4096, 0, 0, 9, 0, 0⟩ (by decide)⟩

/-- C7: when the descriptor's offsets are well-formed (`u32` values with the
string table at or after the symbol table) and the symbol-table offset lies
inside the buffer, `Symbols::parse` yields a view over the buffer suffix
starting at the symbol-table offset whose string-table base is
`stroff - symoff` and whose entry count is the descriptor's symbol count. -/
theorem symbols_parse_normalization (bytes : List Nat)
    (symtab : SymtabCommand) (ctx : Ctx) (hwf : symtab.stroff < U32)
    (hmono : symtab.symoff ≤ symtab.stroff)
    (hoff : symtab.symoff < bytes.length) :
    Symbols.parse bytes symtab ctx =
      .ok { data := bytes.drop symtab.symoff
            start := 0
            nsyms := symtab.nsyms
            strtab := symtab.stroff - symtab.symoff
            ctx := ctx } := by
  have hU : (symtab.stroff + U32 - symtab.symoff) % U32 =
      symtab.stroff - symtab.symoff := by
    have h1 : symtab.stroff + U32 - symtab.symoff =
        symtab.stroff - symtab.symoff + U32 := by omega
    have h2 : symtab.stroff - symtab.symoff < U32 := by omega
    rw [h1, Nat.add_mod_right, Nat.mod_eq_of_lt h2]
  unfold Symbols.parse Symbols.try_from_ctx
  rw [if_neg (by omega)]
  simp [Except.map, hU]

theorem symbols_parse_normalization_witness :
    (⟨1, 7, 2⟩ : SymtabCommand).stroff < U32 ∧
    (⟨1, 7, 2⟩ : SymtabCommand).symoff ≤ (⟨1, 7, 2⟩ : SymtabCommand).stroff ∧
    (⟨1, 7, 2⟩ : SymtabCommand).symoff < ([0, 0, 0] : List Nat).length ∧
    Symbols.parse [0, 0, 0] ⟨1, 7, 2⟩ ⟨.little, .little⟩ =
      .ok { data := [0, 0], start := 0, nsyms := 7, strtab := 1,
            ctx := ⟨.little, .little⟩ } :=
  ⟨by decide, by decide, by decide,
   symbols_parse_normalization [0, 0, 0] ⟨1, 7, 2⟩ ⟨.little, .little⟩
     (by decide) (by decide) (by decide)⟩

/-- C4: an iterator freshly derived from a view with declared count `nsyms`
yields exactly `min k nsyms` items over `k` steps — so exactly `nsyms` items
in total, errors included (an error item never terminates the iteration
early) — and after `nsyms` steps it yields nothing. -/
theorem iterator_yields_declared_count (v : Symbols) (k : Nat) :
    ((v.iter).steps k).1.length = min k v.nsyms ∧
    ((v.iter).steps v.nsyms).2.next = none := by
  constructor
  · have h := SymbolIterator.steps_length (v.iter) k
    simpa [Symbols.iter] using h
  · rw [SymbolIterator.next_eq_none_iff]
    have h := SymbolIterator.steps_count (v.iter) v.nsyms
      (by simp [Symbols.iter])
    have h1 : ((v.iter).steps v.nsyms).2.nsyms = v.nsyms := h.1
    have h2 : ((v.iter).steps v.nsyms).2.count =
        min ((v.iter).count + v.nsyms) v.nsyms := h.2
    simp only [Symbols.iter] at h2
    omega

/-- C5 counterexample: `Symbols::get` performs no bounds check of the index
against the declared count.  A view declaring zero symbols over a 16-byte
zero buffer returns a `(name, entry)` pair at index 0, although every index
is at or beyond the declared count. -/
theorem get_out_of_bounds_returns_pair :
    Symbols.get
        { data := List.replicate 16 0, start := 0, nsyms := 0, strtab := 0,
          ctx := ⟨.big, .little⟩ } 0 =
      .ok ([], ⟨0, 0, 0, 0, 0⟩) := by
  decide

/-- C5 amended: `get(index)` never wraps or clamps the index — it always
reads at the linearly computed offset `start + index * size_with(ctx)` — but
it does not compare the index with the declared count: it fails exactly when
the record read or the name resolution at that offset fails, in particular
whenever fewer than `size_with(ctx)` bytes remain there, and it can return a
`(name, entry)` pair for an index at or beyond the count when the buffer
extends past the declared table. -/
theorem get_reads_at_computed_offset (v : Symbols) (index : Nat)
    (h : v.data.length - (v.start + index * Nlist.size_with v.ctx) <
      Nlist.size_with v.ctx) :
    (v.get index).isOk = false := by
  unfold Symbols.get
  obtain ⟨e, he⟩ := nlist_pread_short v.data
    (v.start + index * Nlist.size_with v.ctx) v.ctx h
  simp [he, bind, Except.bind, Except.isOk, Except.toBool]

theorem get_reads_at_computed_offset_witness :
    (([] : List Nat).length -
        (0 + 0 * Nlist.size_with ⟨.little, .little⟩) <
      Nlist.size_with ⟨.little, .little⟩) ∧
    (Symbols.get
        { data := [], start := 0, nsyms := 5, strtab := 0,
          ctx := ⟨.little, .little⟩ } 0).isOk = false :=
  ⟨by decide,
   get_reads_at_computed_offset
     { data := [], start := 0, nsyms := 5, strtab := 0,
       ctx := ⟨.little, .little⟩ } 0 (by decide)⟩

/-- C6 counterexample: `ProgramHeader::from_bytes` handles truncated input
by aborting — `.expect("buffer is too short for given number of entries")`
panics (modelled as `none`) instead of surfacing an error value — here on a
10-byte buffer with requested count 1. -/
theorem from_bytes_aborts_on_truncated_input :
    program_header64.from_bytes (List.replicate 10 0) 1 = none := by
  decide

/-- C6 amended: the fallible codec operations surface truncated input as
error values — read-one returns an error whenever fewer bytes than the
context-selected wire size remain, and `Symbols::parse` returns an error
when the symbol-table offset lies at or past the end of the buffer — but
`ProgramHeader::from_bytes` instead aborts (panics), precisely when the
buffer is shorter than `count * SIZEOF_PHDR`. -/
theorem parse_errors_but_from_bytes_aborts :
    (∀ (buf : List Nat) (offset : Nat) (ctx : Ctx),
        buf.length - offset < ProgramHeader.size_with ctx →
        ∃ e, ProgramHeader.pread_with buf offset ctx = .error e) ∧
    (∀ (bytes : List Nat) (symtab : SymtabCommand) (ctx : Ctx),
        bytes.length ≤ symtab.symoff →
        ∃ e, Symbols.parse bytes symtab ctx = .error e) ∧
    (∀ (bytes : List Nat) (phnum : Nat),
        program_header64.from_bytes bytes phnum = none ↔
          bytes.length < phnum * program_header64.SIZEOF_PHDR) := by
  refine ⟨programHeader_pread_short, ?_, ?_⟩
  · intro bytes symtab ctx h
    refine ⟨.badOffset symtab.symoff, ?_⟩
    unfold Symbols.parse
    rw [if_pos h]
  · intro bytes phnum
    unfold program_header64.from_bytes
    split_ifs with h <;> simp [h]

theorem parse_errors_but_from_bytes_aborts_witness :
    ((List.replicate 3 0 : List Nat).length - 0 <
        ProgramHeader.size_with ⟨.big, .big⟩ ∧
      ∃ e, ProgramHeader.pread_with (List.replicate 3 0) 0 ⟨.big, .big⟩ =
        .error e) ∧
    ((List.replicate 3 0 : List Nat).length ≤
        (⟨5, 0, 9⟩ : SymtabCommand).symoff ∧
      ∃ e, Symbols.parse (List.replicate 3 0) ⟨5, 0, 9⟩ ⟨.little, .big⟩ =
        .error e) ∧
    (program_header64.from_bytes (List.replicate 60 0) 2 = none ↔
      (List.replicate 60 0 : List Nat).length <
        2 * program_header64.SIZEOF_PHDR) :=
  ⟨⟨by decide,
    parse_errors_but_from_bytes_aborts.1 (List.replicate 3 0) 0 ⟨.big, .big⟩
      (by decide)⟩,
   ⟨by decide,
    parse_errors_but_from_bytes_aborts.2.1 (List.replicate 3 0) ⟨5, 0, 9⟩
      ⟨.little, .big⟩ (by decide)⟩,
   parse_errors_but_from_bytes_aborts.2.2 (List.replicate 60 0) 2⟩

/-- C10: for every view and every index `i` below the declared count, if the
first `i + 1` iterator steps all succeed, the `(name, entry)` pair produced
at the `i`-th step equals the pair returned by `get(i)` — sequential
iteration and indexed random access at `start + i * size_with(ctx)` agree on
every successfully readable entry. -/
theorem iteration_agrees_with_get (v : Symbols) (i : Nat) (hi : i < v.nsyms)
    (hok : ∀ j, j ≤ i → ∃ p, (v.iter).item j = some (.ok p)) :
    ∃ p, (v.iter).item i = some (.ok p) ∧ v.get i = .ok p := by
  have hst := iter_state_after_ok_steps v i (by omega)
    (fun j hj => hok j (by omega))
  obtain ⟨p, hp⟩ := hok i le_rfl
  refine ⟨p, hp, ?_⟩
  rw [SymbolIterator.item, hst] at hp
  unfold SymbolIterator.next at hp
  dsimp only at hp
  rw [if_neg (show ¬ v.nsyms ≤ i by omega)] at hp
  cases hg : Nlist.gread_with v.data
      (v.start + i * Nlist.size_with v.ctx) v.ctx with
  | error e =>
      rw [hg] at hp
      simp at hp
  | ok q =>
      obtain ⟨sym, noff⟩ := q
      rw [hg] at hp
      dsimp only at hp
      cases hs : preadStr v.data (v.strtab + sym.n_strx) with
      | error e =>
          rw [hs] at hp
          simp at hp
      | ok name =>
          rw [hs] at hp
          have hpv : (name, sym) = p := by
            have h1 := Option.some.inj hp
            exact Except.ok.inj h1
          cases hpv
          unfold Symbols.get
          simp [bind, Except.bind, Nlist.pread_with, hg, Except.map, hs,
            pure, Except.pure]

theorem iteration_agrees_with_get_witness :
    0 < (⟨List.replicate 12 0 ++ [65, 0], 0, 1, 12,
        ⟨.little, .little⟩⟩ : Symbols).nsyms ∧
    (∀ j, j ≤ 0 → ∃ p,
      ((⟨List.replicate 12 0 ++ [65, 0], 0, 1, 12,
          ⟨.little, .little⟩⟩ : Symbols).iter).item j = some (.ok p)) ∧
    ∃ p,
      ((⟨List.replicate 12 0 ++ [65, 0], 0, 1, 12,
          ⟨.little, .little⟩⟩ : Symbols).iter).item 0 = some (.ok p) ∧
      (⟨List.replicate 12 0 ++ [65, 0], 0, 1, 12,
          ⟨.little, .little⟩⟩ : Symbols).get 0 = .ok p := by
  refine ⟨by decide, ?_, ?_⟩
  · intro j hj
    have hj0 : j = 0 := Nat.le_zero.mp hj
    subst hj0
    exact ⟨([65], ⟨0, 0, 0, 0, 0⟩), by decide⟩
  · exact iteration_agrees_with_get
      ⟨List.replicate 12 0 ++ [65, 0], 0, 1, 12, ⟨.little, .little⟩⟩ 0
      (by decide)
      (fun j hj => by
        have hj0 : j = 0 := Nat.le_zero.mp hj
        subst hj0
        exact ⟨([65], ⟨0, 0, 0, 0, 0⟩), by decide⟩)

end Goblin

